import Mathlib

/-!
Verification development for `TV/sort_channels.py`: an aggregator that parses
M3U playlists into `name,url` records and classifies them against an ordered
category template, with a catch-all bucket for unmatched lines.

Strings are modelled as `List Char`.  Whitespace is modelled by the four
common ASCII whitespace characters (covering both Python's `str.strip` and
the regex class `\s` on the data this program handles), and the
case-insensitivity of `re.IGNORECASE` is modelled by ASCII lowercasing.
-/

namespace SortChannels

abbrev Str := List Char

/-- Whitespace test used to model both `str.strip()` and the regex class. -/
def isSpace (c : Char) : Bool := c == ' ' || c == '\t' || c == '\n' || c == '\r'

/-- ASCII lowercasing, modelling `re.IGNORECASE` on literal patterns. -/
def lowerChar (c : Char) : Char :=
  if 65 ≤ c.toNat ∧ c.toNat ≤ 90 then Char.ofNat (c.toNat + 32) else c

/-- Python `s.lstrip()` on our whitespace set. -/
def stripLeft (s : Str) : Str := s.dropWhile isSpace

/-- Python `s.strip()` on our whitespace set. -/
def strip (s : Str) : Str := ((s.dropWhile isSpace).reverse.dropWhile isSpace).reverse

/-- Python `s.startswith(p)`. -/
def startsWith (p s : Str) : Bool := p.isPrefixOf s

/-- Python `pat in s` (substring test). -/
def containsSub (pat : Str) : Str → Bool
  | [] => pat.isPrefixOf []
  | c :: cs => pat.isPrefixOf (c :: cs) || containsSub pat (cs)

/-- Python `s.split(sep)[-1]` for a one-character separator: the suffix after
the last occurrence (the whole string when the separator is absent). -/
def afterLastComma (s : Str) : Str := (s.reverse.takeWhile (fun c => !(c == ','))).reverse

/-- The text of `s` before its first comma (all of `s` when there is none). -/
def takeUntilComma (s : Str) : Str := s.takeWhile (fun c => !(c == ','))

/-- The `name` component of a serialized `name,url` line: the text before the
first comma, with surrounding whitespace removed. -/
def nameField (l : Str) : Str := strip (takeUntilComma l)

/-- Characters of the capture group of `="([^"]*)"` after the key: everything
up to the next double quote, failing when no closing quote exists. -/
def upToQuote : Str → Option Str
  | [] => none
  | c :: cs => if c == '"' then some [] else (upToQuote cs).map (fun t => c :: t)

/-- Leftmost-match semantics of `re.search(key + field capture, line)` for the
attribute patterns `group-title="([^"]*)"` and `tvg-name="([^"]*)"`. -/
def attrCapture (key : Str) : Str → Option Str
  | [] => none
  | c :: cs =>
    if (key ++ [ '=', '"' ]).isPrefixOf (c :: cs) then
      upToQuote ((c :: cs).drop (key.length + 2))
    else attrCapture key (cs)

def metaTag : Str := ("#EXTINF:-1").data
def gtKey : Str := ("group-title").data
def tvgKey : Str := ("tvg-name").data
def hashStr : Str := ("#").data
def genre : Str := ("#genre#").data
def genreTag : Str := (",#genre#").data
def otherHeader : Str := ("其它,#genre#").data
def ungrouped : Str := ("未分组").data
def blankPair : Str := ("\n\n").data

/-- Group extraction for one metadata line (source line 121): the
`group-title` attribute if present, else the current carry-over group. -/
def groupOf (cur : Str) (line : Str) : Str := (attrCapture gtKey line).getD cur

/-- Raw `name` extraction for one metadata line (source line 124): the
`tvg-name` attribute if present, else the trailing comma field, stripped. -/
def rawName (line : Str) : Str :=
  (attrCapture tvgKey line).getD (strip (afterLastComma line))

/-- Python `mapping.get(name, name)` (source line 127), over an abstract mapping. -/
def applyMap (m : Str → Option Str) (n : Str) : Str := (m n).getD n

/-- Python `if url and not url.startswith('#')` (source line 131), applied to
the already-stripped URL candidate. -/
def validUrl (u : Str) : Bool := !(u.isEmpty) && !(startsWith hashStr u)

/-- One emitted channel record of the parser. -/
structure Entry where
  group : Str
  name : Str
  url : Str
deriving DecidableEq, Repr

/-- The loop of `parse_m3u_to_txt` (source lines 117-135): scan every line;
on a line whose stripped form starts with `#EXTINF:-1`, extract group and
name, and emit a record exactly when the immediately following line strips to
a non-empty string not starting with `#`; the carry-over group is updated
only on emission. -/
def parseLines (m : Str → Option Str) : List Str → Str → List Entry
  | [], _ => []
  | l :: rest, cur =>
    let line := strip l
    if startsWith metaTag line then
      let grp := (attrCapture gtKey line).getD cur
      let nm0 := (attrCapture tvgKey line).getD (strip (afterLastComma line))
      let nm := (m nm0).getD nm0
      match rest with
      | [] => []
      | nx :: _ =>
        if validUrl (strip nx) then
          ⟨grp, nm, strip nx⟩ :: parseLines m rest grp
        else
          parseLines m rest cur
    else parseLines m rest cur

/-- Python `s.split('\n')`. -/
def splitOnNl : Str → List Str
  | [] => [[]]
  | c :: cs =>
    if c == '\n' then [] :: splitOnNl cs
    else
      match splitOnNl cs with
      | t :: ts => (c :: t) :: ts
      | [] => [[ c ]]

/-- Record extraction of `parse_m3u_to_txt`: split the raw
document on newlines and run the scanning loop from the initial carry-over
group `未分组`. -/
def parseDoc (m : Str → Option Str) (text : Str) : List Entry :=
  parseLines m (splitOnNl text) ungrouped

/-- Recognition part of the parser loop, separated from group threading: the
(stripped metadata line, stripped url) pairs of the entries that emit a
record. -/
def entriesOf : List Str → List (Str × Str)
  | [] => []
  | l :: rest =>
    let line := strip l
    if startsWith metaTag line then
      match rest with
      | [] => []
      | nx :: _ =>
        if validUrl (strip nx) then (line, strip nx) :: entriesOf rest
        else entriesOf rest
    else entriesOf rest

/-- Group threading over recognized entries: each record takes its explicit
`group-title` when present, else the group of the previous emitted record. -/
def assignGroups (m : Str → Option Str) (cur : Str) : List (Str × Str) → List Entry
  | [] => []
  | (line, u) :: rest =>
    let g := groupOf cur line
    ⟨g, applyMap m (rawName line), u⟩ :: assignGroups m g rest

/-- Case-insensitive literal prefix matcher: consume `p` from the front of
`s` (modulo `lowerChar`) and return the remainder. -/
def ciPrefixRem : Str → Str → Option Str
  | [], s => some s
  | _ :: _, [] => none
  | p :: ps, c :: cs => if lowerChar p == lowerChar c then ciPrefixRem ps cs else none

/-- The regex tail `\s*,`: greedily skip whitespace, then require a comma. -/
def wsComma (s : Str) : Bool :=
  match s.dropWhile isSpace with
  | c :: _ => c == ','
  | [] => false

/-- The pattern `escaped-channel\s*,` anchored at the current position. -/
def matchCore (ch s : Str) : Bool :=
  match ciPrefixRem ch s with
  | some r => wsComma r
  | none => false

/-- The pattern `^\s*escaped-channel\s*,` with the backtracking of the
leading `\s*`: try a match after each consumed whitespace character. -/
def matchFrom (ch : Str) : Str → Bool
  | [] => matchCore ch []
  | c :: cs => matchCore ch (c :: cs) || (isSpace c && matchFrom ch (cs))

/-- Success of the anchored case-insensitive match of the escaped channel
name followed by optional whitespace and a comma (source line 185). -/
def matchLine (channel line : Str) : Bool := matchFrom channel line

/-- Filtering step of `main` (source line 172): keep lines that are non-blank
after stripping and do not contain `#genre#`, and strip the kept lines. -/
def allLines (lines : List Str) : List Str :=
  (lines.filter (fun l => !(strip l).isEmpty && !(containsSub genre l))).map strip

/-- Inner step of the classifier scan (source lines 183-187): on a matching
line, append it to the output and add it to the matched set. -/
def stepLine (ch : Str) (p : List Str × List Str) (l : Str) : List Str × List Str :=
  if matchLine ch l then (p.1 ++ [ l ], p.2.insert l) else p

/-- Scan of the full line collection for one expected channel name. -/
def scanChannel (als : List Str) (p : List Str × List Str) (ch : Str) : List Str × List Str :=
  als.foldl (stepLine ch) p

/-- One template category (source lines 178-188): emit the category header,
scan every expected name in order, then emit a blank separator. -/
def processCategory (als : List Str) (p : List Str × List Str) (cat : Str × List Str) :
    List Str × List Str :=
  let p1 : List Str × List Str := (p.1 ++ [ cat.1 ++ genreTag ], p.2)
  let p2 := cat.2.foldl (scanChannel als) p1
  (p2.1 ++ [ [] ], p2.2)

/-- The full category loop of `main`, with output lines and matched set. -/
def classifyFold (template : List (Str × List Str)) (als : List Str) :
    List Str × List Str :=
  template.foldl (processCategory als) ([], [])

/-- Unmatched lines `other_lines` (source line 191): lines whose value is not in the matched
set, in original order. -/
def othersFor (matched : List Str) (als : List Str) : List Str :=
  als.filter (fun l => !(matched.contains l))

/-- The classifier of `main` (source lines 175-195): template categories in
order, then the catch-all `其它` category when any line is unmatched. -/
def classify (template : List (Str × List Str)) (als : List Str) : List Str :=
  let p := classifyFold template als
  let others := othersFor p.2 als
  if others.isEmpty then p.1
  else p.1 ++ otherHeader :: (others ++ [ [] ])

/-- Lines matching one expected name, in aggregation order. -/
def slotLines (als : List Str) (ch : Str) : List Str :=
  als.filter (fun l => matchLine ch l)

/-- Declarative form of one category block: header, then the matched lines
grouped by expected name in template order, then a blank separator. -/
def catBlock (als : List Str) (cat : Str × List Str) : List Str :=
  (cat.1 ++ genreTag) :: ((cat.2.map (slotLines als)).flatten ++ [ [] ])

/-- A line is claimed by some expected-name slot of the template. -/
def matchedBy (template : List (Str × List Str)) (l : Str) : Bool :=
  template.any (fun cat => cat.2.any (fun ch => matchLine ch l))

/-- Declarative catch-all contents: the lines no slot matches, in order. -/
def othersSpec (template : List (Str × List Str)) (als : List Str) : List Str :=
  als.filter (fun l => !(matchedBy template l))

/-- Declarative form of the whole classified document. -/
def classifySpec (template : List (Str × List Str)) (als : List Str) : List Str :=
  (template.map (catBlock als)).flatten ++
    (if (othersSpec template als).isEmpty then []
     else otherHeader :: (othersSpec template als ++ [ [] ]))

/-- Python `"\n".join(lines)` (source line 201). -/
def joinNl : List Str → Str
  | [] => []
  | [ x ] => x
  | x :: y :: xs => x ++ '\n' :: joinNl (y :: xs)

/-- Python `text.splitlines()` (source line 170), for the terminators
`\n`, `\r\n` and `\r`. -/
def splitlinesGo : Str → Str → List Str
  | [], cur => if cur.isEmpty then [] else [ cur.reverse ]
  | '\r' :: '\n' :: rest, cur => cur.reverse :: splitlinesGo rest []
  | '\n' :: rest, cur => cur.reverse :: splitlinesGo rest []
  | '\r' :: rest, cur => cur.reverse :: splitlinesGo rest []
  | c :: rest, cur => splitlinesGo rest (c :: cur)

def splitlines (s : Str) : List Str := splitlinesGo s []

/-- The pipeline of `main` after fetching (source lines 152-201), with the
per-source fetched-and-parsed texts and the loaded template as inputs and the
written output text as result; `none` models the two early returns that write
no output file. -/
def mainRun (contents : List Str) (template : List (Str × List Str)) : Option Str :=
  let allContent := contents.foldl
    (fun acc c => if c.isEmpty then acc else acc ++ c ++ blankPair) []
  if allContent.isEmpty then none
  else if template.isEmpty then none
  else some (joinNl (classify template (allLines (splitlines allContent))))

/-! ### Concrete inputs used to instantiate and to refute claims -/

def exMapNone : Str → Option Str := fun _ => none
def sCNN : Str := ("CNN").data
def sCnnLine : Str := ("CNN,http://x").data
def sCatA : Str := ("A").data
def sCatB : Str := ("B").data
def exT1 : List (Str × List Str) := [(sCatA, [ sCNN ]), (sCatB, [ sCNN ])]
def sNews : Str := ("News").data
def sCnnA : Str := ("CNN,http://a").data
def sBbcB : Str := ("BBC,http://b").data
def exTNews : List (Str × List Str) := [(sNews, [ sCNN ])]
def sAB : Str := ("A,B").data
def sABurl : Str := ("A,B,url").data
def sCnnSpaced : Str := ("cnn ,http://y").data
def exM1 : Str := ("#EXTINF:-1 group-title=\"A\",ch1").data
def exU1 : Str := ("http://u1").data
def exM2 : Str := ("#EXTINF:-1 group-title=\"B\",ch2").data
def exBad : Str := ("#bad").data
def exM3 : Str := ("#EXTINF:-1,ch3").data
def exU3 : Str := ("http://u3").data
def exDoc4 : List Str := [exM1, exU1, exM2, exBad, exM3, exU3]
def sCh1 : Str := ("ch1").data
def sCh3 : Str := ("ch3").data
def exM5 : Str := ("#EXTINF:-1,ch").data
def exU5raw : Str := (" http://u ").data
def sHttpU : Str := ("http://u").data
def sCh : Str := ("ch").data
def sCctvDash : Str := ("CCTV-1").data
def sCctv1 : Str := ("CCTV1").data
def exMap6 : Str → Option Str := fun n => if n == sCctvDash then some sCctv1 else none
def exM6 : Str := ("#EXTINF:-1,CCTV-1").data
def exU6 : Str := ("http://cctv").data
def exGenreLine : Str := ("X#genre#Y,url").data

/-! ### Character-level facts about the case-insensitivity model -/

theorem charOfNat_toNat (n : Nat) (h1 : 97 ≤ n) (h2 : n ≤ 122) :
    (Char.ofNat n).toNat = n := by
  unfold Char.ofNat
  rw [dif_pos]
  · rfl
  · left
    omega

theorem char_eq_iff_toNat {a b : Char} : a = b ↔ a.toNat = b.toNat :=
  ⟨fun h => h ▸ rfl, fun h => Char.ext (UInt32.ext h)⟩

theorem lowerChar_comma {c : Char} (h : lowerChar c = ',') : c = ',' := by
  unfold lowerChar at h
  split at h
  next hc =>
    exfalso
    have h2 := congrArg Char.toNat h
    rw [charOfNat_toNat _ (by omega) (by omega)] at h2
    have h44 : (',').toNat = 44 := rfl
    omega
  next => exact h

theorem isSpace_iff {c : Char} :
    isSpace c = true ↔ c.toNat = 32 ∨ c.toNat = 9 ∨ c.toNat = 10 ∨ c.toNat = 13 := by
  unfold isSpace
  simp only [Bool.or_eq_true, beq_iff_eq]
  constructor
  · rintro (((rfl | rfl) | rfl) | rfl)
    · exact Or.inl rfl
    · exact Or.inr (Or.inl rfl)
    · exact Or.inr (Or.inr (Or.inl rfl))
    · exact Or.inr (Or.inr (Or.inr rfl))
  · rintro (h | h | h | h)
    · exact Or.inl (Or.inl (Or.inl (char_eq_iff_toNat.mpr h)))
    · exact Or.inl (Or.inl (Or.inr (char_eq_iff_toNat.mpr h)))
    · exact Or.inl (Or.inr (char_eq_iff_toNat.mpr h))
    · exact Or.inr (char_eq_iff_toNat.mpr h)

theorem isSpace_lowerChar (c : Char) : isSpace (lowerChar c) = isSpace c := by
  unfold lowerChar
  split
  next hc =>
    have h2 : (Char.ofNat (c.toNat + 32)).toNat = c.toNat + 32 :=
      charOfNat_toNat _ (by omega) (by omega)
    apply Bool.eq_iff_iff.mpr
    rw [isSpace_iff, isSpace_iff, h2]
    omega
  next => rfl

/-! ### Facts about stripping -/

theorem dropWhile_append_all {α : Type} {p : α → Bool} {xs ys : List α}
    (h : ∀ x ∈ xs, p x = true) :
    (xs ++ ys).dropWhile p = ys.dropWhile p := by
  induction xs with
  | nil => rfl
  | cons a l ih =>
    rw [List.cons_append, List.dropWhile_cons, if_pos (h a (by simp))]
    exact ih (fun x hx => h x (by simp [hx]))

theorem takeWhile_append_all {α : Type} {p : α → Bool} {xs ys : List α}
    (h : ∀ x ∈ xs, p x = true) :
    (xs ++ ys).takeWhile p = xs ++ ys.takeWhile p := by
  induction xs with
  | nil => rfl
  | cons a l ih =>
    rw [List.cons_append, List.takeWhile_cons, if_pos (h a (by simp)), ih
      (fun x hx => h x (by simp [hx])), List.cons_append]

theorem strip_decomp (s : Str) :
    ∃ w1 w2, s = w1 ++ strip s ++ w2 ∧ (∀ x ∈ w1, isSpace x = true) ∧
      (∀ x ∈ w2, isSpace x = true) := by
  refine ⟨s.takeWhile isSpace,
    ((s.dropWhile isSpace).reverse.takeWhile isSpace).reverse, ?_, ?_, ?_⟩
  · conv_lhs => rw [← List.takeWhile_append_dropWhile isSpace s]
    rw [List.append_assoc]
    congr 1
    conv_lhs => rw [← List.reverse_reverse (s.dropWhile isSpace),
      ← List.takeWhile_append_dropWhile isSpace (s.dropWhile isSpace).reverse]
    rw [List.reverse_append]
    rfl
  · intro x hx
    exact List.mem_takeWhile_imp hx
  · intro x hx
    rw [List.mem_reverse] at hx
    exact List.mem_takeWhile_imp hx

theorem strip_within (s : Str) : strip s <:+: s := by
  obtain ⟨w1, w2, he, -, -⟩ := strip_decomp s
  exact ⟨w1, w2, he.symm⟩

theorem strip_sandwich {w1 w2 a : Str} (h1 : ∀ x ∈ w1, isSpace x = true)
    (h2 : ∀ x ∈ w2, isSpace x = true) {c c2 : Char} {t t2 : Str}
    (ha : a = c :: t) (hb : a.reverse = c2 :: t2)
    (hc : isSpace c = false) (hd : isSpace c2 = false) :
    strip (w1 ++ a ++ w2) = a := by
  unfold strip
  rw [List.append_assoc, dropWhile_append_all h1, ha, List.cons_append,
    List.dropWhile_cons, if_neg (by simp [hc]), ← List.cons_append, ← ha,
    List.reverse_append, dropWhile_append_all (fun x hx => h2 x (List.mem_reverse.mp hx)),
    hb, List.dropWhile_cons, if_neg (by simp [hd]), ← hb, List.reverse_reverse]

theorem strip_eq_nil_of_all {s : Str} (h : ∀ x ∈ s, isSpace x = true) :
    strip s = [] := by
  unfold strip
  have h1 : s.dropWhile isSpace = [] := List.dropWhile_eq_nil_iff.mpr h
  rw [h1]
  rfl

theorem strip_eq_self_parts {s : Str} (h : strip s = s) :
    s.dropWhile isSpace = s ∧ s.reverse.dropWhile isSpace = s.reverse := by
  have hlen1 : (s.dropWhile isSpace).length ≤ s.length :=
    (List.dropWhile_suffix isSpace).length_le
  have hlen2 : (strip s).length ≤ (s.dropWhile isSpace).length := by
    unfold strip
    rw [List.length_reverse]
    calc ((s.dropWhile isSpace).reverse.dropWhile isSpace).length
        ≤ (s.dropWhile isSpace).reverse.length := (List.dropWhile_suffix isSpace).length_le
      _ = (s.dropWhile isSpace).length := List.length_reverse _
  have hd : s.dropWhile isSpace = s := by
    apply (List.dropWhile_suffix isSpace).eq_of_length
    rw [h] at hlen2
    omega
  refine ⟨hd, ?_⟩
  have h2 : ((s.reverse.dropWhile isSpace)).reverse = s := by
    have := h
    unfold strip at this
    rwa [hd] at this
  rw [← List.reverse_reverse (s.reverse.dropWhile isSpace), h2]

/-! ### Decomposition of the channel-name matcher -/

theorem ciPrefixRem_eq_some {p : Str} : ∀ {s r : Str},
    ciPrefixRem p s = some r ↔ ∃ a, s = a ++ r ∧ a.map lowerChar = p.map lowerChar := by
  induction p with
  | nil =>
    intro s r
    simp only [ciPrefixRem, Option.some_inj, List.map_nil, List.map_eq_nil_iff]
    constructor
    · rintro rfl
      exact ⟨[], rfl, rfl⟩
    · rintro ⟨a, rfl, rfl⟩
      rfl
  | cons x ps ih =>
    intro s r
    cases s with
    | nil =>
      simp only [ciPrefixRem]
      constructor
      · intro h
        exact absurd h (by simp)
      · rintro ⟨a, ha, hm⟩
        exfalso
        have : a = [] := by
          cases a with
          | nil => rfl
          | cons y ys => simp at ha
        subst this
        simp at hm
    | cons c cs =>
      simp only [ciPrefixRem]
      split
      next hx =>
        rw [ih]
        constructor
        · rintro ⟨a, rfl, hm⟩
          refine ⟨c :: a, rfl, ?_⟩
          simp only [List.map_cons, hm]
          rw [beq_iff_eq] at hx
          rw [hx]
        · rintro ⟨a, ha, hm⟩
          cases a with
          | nil => simp at hm
          | cons y ys =>
            simp only [List.cons_append, List.cons.injEq] at ha
            obtain ⟨rfl, rfl⟩ := ha
            simp only [List.map_cons, List.cons.injEq] at hm
            exact ⟨ys, rfl, hm.2⟩
      next hx =>
        constructor
        · intro h
          exact absurd h (by simp)
        · rintro ⟨a, ha, hm⟩
          exfalso
          cases a with
          | nil => simp at hm
          | cons y ys =>
            simp only [List.cons_append, List.cons.injEq] at ha
            obtain ⟨rfl, rfl⟩ := ha
            simp only [List.map_cons, List.cons.injEq] at hm
            rw [beq_iff_eq] at hx
            exact hx hm.1.symm

theorem wsComma_iff {s : Str} :
    wsComma s = true ↔ ∃ w r, s = w ++ ',' :: r ∧ ∀ x ∈ w, isSpace x = true := by
  constructor
  · intro h
    unfold wsComma at h
    refine ⟨s.takeWhile isSpace, ?_⟩
    rcases hd : s.dropWhile isSpace with _ | ⟨c, rest⟩
    · rw [hd] at h
      exact absurd h (by simp)
    · rw [hd] at h
      simp only [beq_iff_eq] at h
      subst h
      refine ⟨rest, ?_, fun x hx => List.mem_takeWhile_imp hx⟩
      conv_lhs => rw [← List.takeWhile_append_dropWhile isSpace s]
      rw [hd]
  · rintro ⟨w, r, rfl, hw⟩
    unfold wsComma
    rw [dropWhile_append_all hw, List.dropWhile_cons, if_neg (by simp [isSpace])]
    simp

theorem matchCore_iff {ch s : Str} :
    matchCore ch s = true ↔
      ∃ a w2 r, s = a ++ w2 ++ ',' :: r ∧ a.map lowerChar = ch.map lowerChar ∧
        ∀ x ∈ w2, isSpace x = true := by
  unfold matchCore
  rcases hp : ciPrefixRem ch s with _ | rem
  · constructor
    · intro h
      exact absurd h (by simp)
    · rintro ⟨a, w2, r, rfl, hm, hw⟩
      have : ciPrefixRem ch (a ++ (w2 ++ ',' :: r)) = some (w2 ++ ',' :: r) :=
        ciPrefixRem_eq_some.mpr ⟨a, rfl, hm⟩
      rw [List.append_assoc] at hp
      rw [hp] at this
      cases this
  · rw [wsComma_iff]
    obtain ⟨a, rfl, hm⟩ := ciPrefixRem_eq_some.mp hp
    constructor
    · rintro ⟨w, r, rfl, hw⟩
      exact ⟨a, w, r, by rw [List.append_assoc], hm, hw⟩
    · rintro ⟨a2, w2, r, he, hm2, hw⟩
      have hlen : a2.length = a.length := by
        have l1 := congrArg List.length hm
        have l2 := congrArg List.length hm2
        simp only [List.length_map] at l1 l2
        omega
      have he2 : a ++ rem = a2 ++ (w2 ++ ',' :: r) := by rw [← List.append_assoc, he]
      have ha : a2 = a := (List.append_inj he2.symm hlen).1
      subst ha
      have hr : rem = w2 ++ ',' :: r := (List.append_inj he2 rfl).2
      exact ⟨w2, r, hr, hw⟩

theorem matchFrom_iff {ch : Str} : ∀ {l : Str},
    matchFrom ch l = true ↔
      ∃ w1 a w2 r, l = w1 ++ a ++ w2 ++ ',' :: r ∧ (∀ x ∈ w1, isSpace x = true) ∧
        a.map lowerChar = ch.map lowerChar ∧ (∀ x ∈ w2, isSpace x = true) := by
  intro l
  induction l with
  | nil =>
    simp only [matchFrom, matchCore_iff]
    constructor
    · rintro ⟨a, w2, r, he, -⟩
      exact absurd he.symm (by simp)
    · rintro ⟨w1, a, w2, r, he, -⟩
      exact absurd he.symm (by simp)
  | cons c cs ih =>
    simp only [matchFrom, Bool.or_eq_true, Bool.and_eq_true, matchCore_iff, ih]
    constructor
    · rintro (⟨a, w2, r, he, hm, hw⟩ | ⟨hsp, w1, a, w2, r, he, hw1, hm, hw2⟩)
      · exact ⟨[], a, w2, r, by simpa using he, by simp, hm, hw⟩
      · refine ⟨c :: w1, a, w2, r, by simp [he], ?_, hm, hw2⟩
        intro x hx
        rcases List.mem_cons.mp hx with rfl | hx
        · exact hsp
        · exact hw1 x hx
    · rintro ⟨w1, a, w2, r, he, hw1, hm, hw2⟩
      cases w1 with
      | nil =>
        left
        exact ⟨a, w2, r, by simpa using he, hm, hw2⟩
      | cons y ys =>
        right
        simp only [List.cons_append, List.cons.injEq] at he
        obtain ⟨rfl, he⟩ := he
        exact ⟨hw1 c (by simp), ys, a, w2, r, he, fun x hx => hw1 x (by simp [hx]), hm, hw2⟩

theorem dropWhile_head_false {A : Type} {p : A → Bool} :
    ∀ {l : List A} {c : A} {r : List A}, l.dropWhile p = c :: r → p c = false := by
  intro l
  induction l with
  | nil =>
    intro c r h
    cases h
  | cons a t ih =>
    intro c r h
    rw [List.dropWhile_cons] at h
    split at h
    · exact ih h
    · next hp =>
      cases h
      simpa using hp

theorem head_not_space_of_strip {c : Char} {t : Str}
    (h : (c :: t).dropWhile isSpace = c :: t) : isSpace c = false := by
  by_contra hcon
  rw [Bool.not_eq_false] at hcon
  rw [List.dropWhile_cons, if_pos hcon] at h
  have h2 := congrArg List.length h
  have hle : (t.dropWhile isSpace).length ≤ t.length :=
    (List.dropWhile_suffix isSpace).length_le
  simp only [List.length_cons] at h2
  omega

theorem takeUntilComma_split {l : Str} (hl : ',' ∈ l) :
    ∃ r, l = takeUntilComma l ++ ',' :: r ∧ ',' ∉ takeUntilComma l := by
  have hsplit := List.takeWhile_append_dropWhile (fun c => !(c == ',')) l
  rcases hd : l.dropWhile (fun c => !(c == ',')) with _ | ⟨c0, r⟩
  · exfalso
    rw [hd, List.append_nil] at hsplit
    rw [← hsplit] at hl
    have hmem := List.mem_takeWhile_imp (p := fun c => !(c == ',')) hl
    simp at hmem
  · have hc0 : c0 = ',' := by
      have := dropWhile_head_false hd
      simpa using this
    subst hc0
    refine ⟨r, ?_, ?_⟩
    · unfold takeUntilComma
      conv_lhs => rw [← hsplit]
      rw [hd]
    · intro hmem
      have := List.mem_takeWhile_imp hmem
      simp at this

theorem takeWhile_prefix_comma {xs r : Str} (h : ',' ∉ xs) :
    (xs ++ ',' :: r).takeWhile (fun c => !(c == ',')) = xs := by
  rw [takeWhile_append_all, List.takeWhile_cons, if_neg (by simp), List.append_nil]
  intro x hx
  have hne : x ≠ ',' := fun he => h (he ▸ hx)
  simp [hne]

theorem comma_not_space : isSpace ',' = false := by decide

theorem lowerChar_comma_self : lowerChar ',' = ',' := by decide

/-- Characterization of the matcher for well-formed inputs: for an expected
name that carries no surrounding whitespace and contains no comma, and a line
that contains a comma, the regex of source line 185 succeeds exactly when the
name field of the line (the text before the first comma, stripped) equals the
expected name case-insensitively. -/
theorem matchLine_iff_nameField {ch l : Str} (hs : strip ch = ch) (hc : ',' ∉ ch)
    (hl : ',' ∈ l) :
    matchLine ch l = true ↔ (nameField l).map lowerChar = ch.map lowerChar := by
  constructor
  · intro h
    obtain ⟨w1, a, w2, r, he, hw1, hm, hw2⟩ := matchFrom_iff.mp h
    have hacf : ',' ∉ a := by
      intro hmem
      have h1 : lowerChar ',' ∈ a.map lowerChar := List.mem_map_of_mem lowerChar hmem
      rw [hm, lowerChar_comma_self] at h1
      obtain ⟨x, hx, hx2⟩ := List.mem_map.mp h1
      exact hc (lowerChar_comma hx2 ▸ hx)
    have htake : takeUntilComma l = w1 ++ a ++ w2 := by
      unfold takeUntilComma
      rw [he]
      rw [show w1 ++ a ++ w2 ++ ',' :: r = (w1 ++ a ++ w2) ++ ',' :: r by
        simp [List.append_assoc]]
      apply takeWhile_prefix_comma
      intro hmem
      rcases List.mem_append.mp hmem with hmem2 | hmem2
      · rcases List.mem_append.mp hmem2 with hmem3 | hmem3
        · have := hw1 ',' hmem3
          rw [comma_not_space] at this
          cases this
        · exact hacf hmem3
      · have := hw2 ',' hmem2
        rw [comma_not_space] at this
        cases this
    cases a with
    | nil =>
      have hch : ch = [] := by
        cases ch with
        | nil => rfl
        | cons c0 ct => simp at hm
      subst hch
      have hz : strip (w1 ++ [] ++ w2) = [] := by
        apply strip_eq_nil_of_all
        intro x hx
        simp only [List.append_nil, List.mem_append] at hx
        rcases hx with hx | hx
        · exact hw1 x hx
        · exact hw2 x hx
      unfold nameField
      rw [htake, hz]
    | cons a0 at0 =>
      obtain ⟨c0, ct, rfl⟩ : ∃ c0 ct, ch = c0 :: ct := by
        cases ch with
        | nil => simp at hm
        | cons c0 ct => exact ⟨c0, ct, rfl⟩
      have hhead : lowerChar a0 = lowerChar c0 := by
        simp only [List.map_cons, List.cons.injEq] at hm
        exact hm.1
      have hch0 : isSpace c0 = false :=
        head_not_space_of_strip (strip_eq_self_parts hs).1
      have ha0 : isSpace a0 = false := by
        by_contra hcon
        rw [Bool.not_eq_false] at hcon
        have hx : isSpace (lowerChar a0) = true := by
          rw [isSpace_lowerChar]
          exact hcon
        rw [hhead, isSpace_lowerChar, hch0] at hx
        cases hx
      have hrev : (a0 :: at0).reverse.map lowerChar = (c0 :: ct).reverse.map lowerChar := by
        rw [List.map_reverse, List.map_reverse, hm]
      rcases har : (a0 :: at0).reverse with _ | ⟨c2, t2⟩
      · exfalso
        have := congrArg List.length har
        simp at this
      rcases hcr : (c0 :: ct).reverse with _ | ⟨d2, e2⟩
      · exfalso
        have := congrArg List.length hcr
        simp at this
      have hlast : lowerChar c2 = lowerChar d2 := by
        rw [har, hcr] at hrev
        simp only [List.map_cons, List.cons.injEq] at hrev
        exact hrev.1
      have hd2 : isSpace d2 = false := by
        have h2 := (strip_eq_self_parts hs).2
        rw [hcr] at h2
        exact head_not_space_of_strip h2
      have hc2 : isSpace c2 = false := by
        by_contra hcon
        rw [Bool.not_eq_false] at hcon
        have hx : isSpace (lowerChar c2) = true := by
          rw [isSpace_lowerChar]
          exact hcon
        rw [hlast, isSpace_lowerChar, hd2] at hx
        cases hx
      have hns : nameField l = a0 :: at0 := by
        unfold nameField
        rw [htake]
        exact strip_sandwich hw1 hw2 rfl har ha0 hc2
      rw [hns]
      exact hm
  · intro hr
    obtain ⟨r, he, hnc⟩ := takeUntilComma_split hl
    obtain ⟨v1, v2, hd, hv1, hv2⟩ := strip_decomp (takeUntilComma l)
    apply matchFrom_iff.mpr
    unfold nameField at hr
    refine ⟨v1, strip (takeUntilComma l), v2, r, ?_, hv1, hr, hv2⟩
    conv_lhs => rw [he]
    conv_lhs => rw [hd]

/-! ### The classifier loop versus its declarative description -/

theorem scanChannel_fst (als : List Str) (ch : Str) :
    ∀ p : List Str × List Str, (scanChannel als p ch).1 = p.1 ++ slotLines als ch := by
  unfold scanChannel slotLines
  induction als with
  | nil =>
    intro p
    simp
  | cons l ls ih =>
    intro p
    rw [List.foldl_cons, List.filter_cons, ih]
    by_cases h : matchLine ch l = true
    · simp [stepLine, h]
    · simp [stepLine, h]

theorem mem_scanChannel_snd {als : List Str} {ch : Str} {q : Str} :
    ∀ {p : List Str × List Str},
      q ∈ (scanChannel als p ch).2 ↔ q ∈ p.2 ∨ (q ∈ als ∧ matchLine ch q = true) := by
  unfold scanChannel
  induction als with
  | nil =>
    intro p
    simp
  | cons l ls ih =>
    intro p
    rw [List.foldl_cons, ih]
    by_cases h : matchLine ch l = true
    · simp only [stepLine, if_pos h, List.mem_insert_iff, List.mem_cons]
      constructor
      · rintro ((rfl | hq) | ⟨hq1, hq2⟩)
        · exact Or.inr ⟨Or.inl rfl, h⟩
        · exact Or.inl hq
        · exact Or.inr ⟨Or.inr hq1, hq2⟩
      · rintro (hq | ⟨(rfl | hq1), hq2⟩)
        · exact Or.inl (Or.inr hq)
        · exact Or.inl (Or.inl rfl)
        · exact Or.inr ⟨hq1, hq2⟩
    · simp only [stepLine, if_neg h, List.mem_cons]
      constructor
      · rintro (hq | ⟨hq1, hq2⟩)
        · exact Or.inl hq
        · exact Or.inr ⟨Or.inr hq1, hq2⟩
      · rintro (hq | ⟨(rfl | hq1), hq2⟩)
        · exact Or.inl hq
        · exact absurd hq2 h
        · exact Or.inr ⟨hq1, hq2⟩

theorem channels_fold_fst (als : List Str) (chs : List Str) :
    ∀ p : List Str × List Str,
      (chs.foldl (scanChannel als) p).1 = p.1 ++ (chs.map (slotLines als)).flatten := by
  induction chs with
  | nil =>
    intro p
    simp
  | cons ch chs ih =>
    intro p
    rw [List.foldl_cons, ih, scanChannel_fst]
    simp

theorem mem_channels_fold_snd {als : List Str} {chs : List Str} {q : Str} :
    ∀ {p : List Str × List Str},
      q ∈ (chs.foldl (scanChannel als) p).2 ↔
        q ∈ p.2 ∨ (q ∈ als ∧ chs.any (fun ch => matchLine ch q) = true) := by
  induction chs with
  | nil =>
    intro p
    simp
  | cons ch chs ih =>
    intro p
    rw [List.foldl_cons, ih, mem_scanChannel_snd]
    simp only [List.any_cons, Bool.or_eq_true]
    constructor
    · rintro ((hq | ⟨hq1, hq2⟩) | ⟨hq1, hq2⟩)
      · exact Or.inl hq
      · exact Or.inr ⟨hq1, Or.inl hq2⟩
      · exact Or.inr ⟨hq1, Or.inr hq2⟩
    · rintro (hq | ⟨hq1, hq2 | hq2⟩)
      · exact Or.inl (Or.inl hq)
      · exact Or.inl (Or.inr ⟨hq1, hq2⟩)
      · exact Or.inr ⟨hq1, hq2⟩

theorem template_fold_fst (als : List Str) (t : List (Str × List Str)) :
    ∀ p : List Str × List Str,
      (t.foldl (processCategory als) p).1 = p.1 ++ (t.map (catBlock als)).flatten := by
  induction t with
  | nil =>
    intro p
    simp
  | cons cat t ih =>
    intro p
    rw [List.foldl_cons, ih]
    simp only [processCategory, catBlock]
    rw [channels_fold_fst]
    simp [catBlock]

theorem mem_template_fold_snd {als : List Str} {t : List (Str × List Str)} {q : Str} :
    ∀ {p : List Str × List Str},
      q ∈ (t.foldl (processCategory als) p).2 ↔
        q ∈ p.2 ∨ (q ∈ als ∧ matchedBy t q = true) := by
  induction t with
  | nil =>
    intro p
    simp [matchedBy]
  | cons cat t ih =>
    intro p
    rw [List.foldl_cons, ih]
    unfold processCategory
    rw [show (((p.1 ++ [cat.1 ++ genreTag], p.2) : List Str × List Str)).2 = p.2 from rfl]
    unfold matchedBy
    simp only [List.any_cons, Bool.or_eq_true]
    rw [mem_channels_fold_snd]
    constructor
    · rintro ((hq | ⟨hq1, hq2⟩) | ⟨hq1, hq2⟩)
      · exact Or.inl hq
      · exact Or.inr ⟨hq1, Or.inl hq2⟩
      · exact Or.inr ⟨hq1, Or.inr hq2⟩
    · rintro (hq | ⟨hq1, hq2 | hq2⟩)
      · exact Or.inl (Or.inl hq)
      · exact Or.inl (Or.inr ⟨hq1, hq2⟩)
      · exact Or.inr ⟨hq1, hq2⟩

theorem mem_classifyFold_snd {als : List Str} {t : List (Str × List Str)} {q : Str} :
    q ∈ (classifyFold t als).2 ↔ q ∈ als ∧ matchedBy t q = true := by
  unfold classifyFold
  rw [mem_template_fold_snd]
  simp

theorem othersFor_classifyFold (t : List (Str × List Str)) (als : List Str) :
    othersFor (classifyFold t als).2 als = othersSpec t als := by
  unfold othersFor othersSpec
  apply List.filter_congr
  intro x hx
  congr 1
  apply Bool.eq_iff_iff.mpr
  rw [List.elem_iff, mem_classifyFold_snd]
  simp [hx]

theorem classify_eq_spec (t : List (Str × List Str)) (als : List Str) :
    classify t als = classifySpec t als := by
  simp only [classify, classifySpec]
  rw [show (classifyFold t als).1 = (List.map (catBlock als) t).flatten by
        unfold classifyFold
        rw [template_fold_fst als t ([], [])]
        rfl,
      othersFor_classifyFold t als]
  by_cases h : (othersSpec t als).isEmpty = true
  · simp [h]
  · simp only [h, if_neg]
    simp

/-! ### The parser loop versus recognition plus group threading -/

theorem parseLines_eq_assignGroups (m : Str → Option Str) :
    ∀ (ls : List Str) (cur : Str), parseLines m ls cur = assignGroups m cur (entriesOf ls) := by
  intro ls
  induction ls with
  | nil =>
    intro cur
    rfl
  | cons l rest ih =>
    intro cur
    simp only [parseLines, entriesOf]
    by_cases h1 : startsWith metaTag (strip l) = true
    · rw [if_pos h1, if_pos h1]
      cases rest with
      | nil => rfl
      | cons nx r2 =>
        dsimp only
        by_cases h2 : validUrl (strip nx) = true
        · rw [if_pos h2, if_pos h2]
          simp only [assignGroups]
          rw [ih]
          rfl
        · rw [if_neg h2, if_neg h2, ih]
    · rw [if_neg h1, if_neg h1, ih]

theorem parseLines_cons_meta_valid (m : Str → Option Str) (g ml nx : Str) (rest : List Str)
    (h1 : startsWith metaTag (strip ml) = true) (h2 : validUrl (strip nx) = true) :
    parseLines m (ml :: nx :: rest) g =
      ⟨groupOf g (strip ml), applyMap m (rawName (strip ml)), strip nx⟩ ::
        parseLines m (nx :: rest) (groupOf g (strip ml)) := by
  simp only [parseLines, if_pos h1, if_pos h2]
  rfl

theorem parseLines_cons_meta_invalid (m : Str → Option Str) (g ml nx : Str) (rest : List Str)
    (h1 : startsWith metaTag (strip ml) = true) (h2 : validUrl (strip nx) = false) :
    parseLines m (ml :: nx :: rest) g = parseLines m (nx :: rest) g := by
  simp only [parseLines, if_pos h1, h2]
  simp

theorem parseLines_single_meta (m : Str → Option Str) (g ml : Str) :
    parseLines m [ml] g = [] := by
  simp only [parseLines]
  by_cases h1 : startsWith metaTag (strip ml) = true
  · rw [if_pos h1]
  · rw [if_neg h1]

/-! ### The main pipeline -/

theorem foldl_content_eq_nil {contents : List Str} :
    ∀ {acc : Str},
      contents.foldl (fun acc c => if c.isEmpty then acc else acc ++ c ++ blankPair) acc = []
        ↔ acc = [] ∧ ∀ c ∈ contents, c = [] := by
  induction contents with
  | nil =>
    intro acc
    simp
  | cons c cs ih =>
    intro acc
    rw [List.foldl_cons]
    by_cases h : c.isEmpty = true
    · rw [if_pos h, ih]
      have hc : c = [] := by simpa using h
      subst hc
      simp
    · rw [if_neg h, ih]
      have hbp : blankPair ≠ [] := by decide
      constructor
      · rintro ⟨ha, -⟩
        exfalso
        rcases List.append_eq_nil.mp ha with ⟨-, hb⟩
        exact hbp hb
      · rintro ⟨ha, hall⟩
        exfalso
        apply h
        have : c = [] := hall c (by simp)
        simp [this]

theorem mainRun_none_iff (contents : List Str) (t : List (Str × List Str)) :
    mainRun contents t = none ↔ (∀ c ∈ contents, c = []) ∨ t = [] := by
  have hiff1 :
      (List.foldl (fun acc c => if c.isEmpty then acc else acc ++ c ++ blankPair)
          [] contents).isEmpty = true ↔ ∀ c ∈ contents, c = [] := by
    rw [List.isEmpty_iff, foldl_content_eq_nil]
    simp
  simp only [mainRun]
  by_cases h1 : (List.foldl (fun acc c => if c.isEmpty then acc else acc ++ c ++ blankPair)
      [] contents).isEmpty = true
  · rw [if_pos h1]
    exact iff_of_true rfl (Or.inl (hiff1.mp h1))
  · rw [if_neg h1]
    by_cases h2 : t.isEmpty = true
    · rw [if_pos h2]
      exact iff_of_true rfl (Or.inr (by simpa using h2))
    · rw [if_neg h2]
      apply iff_of_false
      · simp
      · rintro (hall | hT)
        · exact h1 (hiff1.mpr hall)
        · apply h2
          simp [hT]

/-! ### Substring exclusion -/

theorem containsSub_iff {pat : Str} : ∀ {s : Str}, containsSub pat s = true ↔ pat <:+: s := by
  intro s
  induction s with
  | nil =>
    simp [containsSub, List.isPrefixOf_iff_prefix]
  | cons c cs ih =>
    simp only [containsSub, Bool.or_eq_true, List.isPrefixOf_iff_prefix, ih,
      List.infix_cons_iff]

theorem allLines_no_genre {lines : List Str} {l : Str} (h : l ∈ allLines lines) :
    containsSub genre l = false ∧ l ≠ [] := by
  unfold allLines at h
  obtain ⟨l0, hl0, rfl⟩ := List.mem_map.mp h
  rw [List.mem_filter, Bool.and_eq_true] at hl0
  obtain ⟨-, hne, hng⟩ := hl0
  constructor
  · by_contra hcon
    rw [Bool.not_eq_false] at hcon
    have hinf : genre <:+: strip l0 := containsSub_iff.mp hcon
    have hinf2 : genre <:+: l0 := hinf.trans (strip_within l0)
    rw [Bool.not_eq_true'] at hng
    rw [containsSub_iff.mpr hinf2] at hng
    cases hng
  · intro hnil
    rw [hnil] at hne
    simp at hne

/-! ### Trailing separator of the classified document -/

theorem joinNl_append_nil_last : ∀ {ys : List Str}, ys ≠ [] →
    joinNl (ys ++ [ [] ]) = joinNl ys ++ [ '\n' ] := by
  intro ys
  induction ys with
  | nil =>
    intro h
    cases h rfl
  | cons a ys ih =>
    intro _
    cases ys with
    | nil => rfl
    | cons b ys2 =>
      have h2 := ih (by simp)
      simp only [List.cons_append] at h2 ⊢
      rw [joinNl, joinNl, h2]
      simp

theorem classify_ends_sep (t : List (Str × List Str)) (als : List Str) (ht : t ≠ []) :
    ∃ ys, ys ≠ [] ∧ classify t als = ys ++ [ [] ] := by
  rw [classify_eq_spec]
  unfold classifySpec
  by_cases h : (othersSpec t als).isEmpty = true
  · rw [if_pos h, List.append_nil]
    rcases List.eq_nil_or_concat t with rfl | ⟨t2, c, rfl⟩
    · cases ht rfl
    · rw [List.concat_eq_append, List.map_append, List.flatten_append]
      refine ⟨(List.map (catBlock als) t2).flatten ++
        ((c.1 ++ genreTag) :: (List.map (slotLines als) c.2).flatten), by simp, ?_⟩
      simp only [List.map_cons, List.map_nil, List.flatten_cons, List.flatten_nil,
        List.append_nil, catBlock]
      simp
  · rw [if_neg h]
    refine ⟨(List.map (catBlock als) t).flatten ++ otherHeader :: othersSpec t als,
      by simp, ?_⟩
    simp

/-! ### Claims -/

/-- C1 counterexample: with template categories `A` and `B` both expecting
`CNN`, the single aggregated line `CNN,http://x` is emitted twice by the
classifier (once under each category), refuting that every channel line
appears in the output exactly once under at most one expected-name slot. -/
theorem c1_counterexample : (classify exT1 [ sCnnLine ]).count sCnnLine = 2 := by
  decide

/-- C1 (amended): every aggregated channel line surfaces in the classified
document, and matched and catch-all placement are mutually exclusive: a line
matched by some expected-name slot is listed under every matching slot (once
per occurrence of the line in the aggregated sequence) and never in the
catch-all, while a line matched by no slot has exactly its occurrences in the
catch-all and appears under no slot.  The original "exactly once under at
most one category" fails when several slots match one line. -/
theorem c1_amended (t : List (Str × List Str)) (als : List Str) (l : Str)
    (hmem : l ∈ als) :
    classify t als = classifySpec t als ∧
    (matchedBy t l = true →
      (∃ cat ∈ t, ∃ ch ∈ cat.2, l ∈ slotLines als ch) ∧ l ∉ othersSpec t als) ∧
    (matchedBy t l = false →
      (othersSpec t als).count l = als.count l ∧
      ∀ cat ∈ t, ∀ ch ∈ cat.2, l ∉ slotLines als ch) ∧
    (∀ cat ∈ t, ∀ ch ∈ cat.2, matchLine ch l = true →
      (slotLines als ch).count l = als.count l) := by
  refine ⟨classify_eq_spec t als, ?_, ?_, ?_⟩
  · intro hm
    constructor
    · rw [matchedBy, List.any_eq_true] at hm
      obtain ⟨cat, hcat, hm2⟩ := hm
      rw [List.any_eq_true] at hm2
      obtain ⟨ch, hch, hm3⟩ := hm2
      exact ⟨cat, hcat, ch, hch, List.mem_filter.mpr ⟨hmem, hm3⟩⟩
    · intro hmo
      rw [othersSpec, List.mem_filter, hm] at hmo
      simp at hmo
  · intro hm
    constructor
    · apply List.count_filter
      rw [hm]
      rfl
    · intro cat hcat ch hch hmo
      rw [slotLines, List.mem_filter] at hmo
      have : matchedBy t l = true := by
        rw [matchedBy, List.any_eq_true]
        exact ⟨cat, hcat, List.any_eq_true.mpr ⟨ch, hch, hmo.2⟩⟩
      rw [hm] at this
      cases this
  · intro cat hcat ch hch hml
    exact List.count_filter hml

/-- C1 amended witness at a concrete input. -/
theorem c1_amended_witness :
    sCnnA ∈ [ sCnnA, sBbcB ] ∧ matchedBy exTNews sCnnA = true ∧
      sCnnA ∉ othersSpec exTNews [ sCnnA, sBbcB ] :=
  ⟨by decide, by decide,
    ((c1_amended exTNews [ sCnnA, sBbcB ] sCnnA (by decide)).2.1 (by decide)).2⟩

/-- C2 counterexample: the expected name `A,B` (a template channel line may
contain a comma) matches the serialized line `A,B,url` although the name
field of that line (the text before the first comma) is `A`, not `A,B`; so
"matched iff name field equals expected name" fails as stated. -/
theorem c2_counterexample :
    matchLine sAB sABurl = true ∧
      (nameField sABurl).map lowerChar ≠ sAB.map lowerChar := by
  decide

/-- C2 (amended): for an expected name with no surrounding whitespace and no
comma, and a line containing a comma (every serialized `name,url` line does),
a line is matched iff its name field — the text before the first comma,
stripped — equals the expected name case-insensitively; in particular
`CCTV1` never matches `CCTV10` and vice versa. -/
theorem c2_amended {ch l : Str} (hs : strip ch = ch) (hc : ',' ∉ ch)
    (hl : ',' ∈ l) :
    matchLine ch l = true ↔ (nameField l).map lowerChar = ch.map lowerChar :=
  matchLine_iff_nameField hs hc hl

/-- C2 amended witness at a concrete input (case-insensitive, whitespace
before the comma). -/
theorem c2_amended_witness :
    (strip sCNN = sCNN ∧ ',' ∉ sCNN ∧ ',' ∈ sCnnSpaced) ∧
    (matchLine sCNN sCnnSpaced = true ↔
      (nameField sCnnSpaced).map lowerChar = sCNN.map lowerChar) :=
  ⟨⟨by decide, by decide, by decide⟩, c2_amended (by decide) (by decide) (by decide)⟩

/-- C3: the classifier's imperative loop produces exactly the declarative
document: categories in template order, each category listing the matched
lines grouped by expected name in the category's template order, each slot
holding its matching lines in original aggregation order, followed by the
catch-all of unmatched lines in aggregation order. -/
theorem c3_order (t : List (Str × List Str)) (als : List Str) :
    classify t als = classifySpec t als :=
  classify_eq_spec t als

/-- C4 counterexample: the metadata line with `group-title="B"` is followed
by a `#`-starting line, so no record is emitted and the carry-over group is
not updated; the later attribute-free entry `ch3` therefore receives group
`A` (the group of the last emitted record), not `B` as the claim's
"until the next explicit group-title is seen" dictates. -/
theorem c4_counterexample :
    parseLines exMapNone exDoc4 ungrouped =
      [⟨sCatA, sCh1, exU1⟩, ⟨sCatA, sCh3, exU3⟩] ∧ sCatA ≠ sCatB := by
  decide

/-- C4 (amended): each emitted record's group is its explicit `group-title`
when present, else the carry-over; the carry-over is the group of the most
recently emitted record (initially `未分组`) — entries discarded for lack of
a valid URL line do not update it, even when they carry an explicit
`group-title`.  Formally, the parser loop equals entry recognition followed
by group threading over the emitted entries only. -/
theorem c4_amended (m : Str → Option Str) (ls : List Str) (cur : Str) :
    parseLines m ls cur = assignGroups m cur (entriesOf ls) :=
  parseLines_eq_assignGroups m ls cur

/-- C5 counterexample: for the metadata line `#EXTINF:-1,ch` followed by the
line ` http://u ` the parser emits the record with url `http://u` — the
stripped following line — not the following line itself, refuting "the
record's url is exactly that following line". -/
theorem c5_counterexample :
    parseLines exMapNone [ exM5, exU5raw ] ungrouped =
      [⟨ungrouped, sCh, sHttpU⟩] ∧ sHttpU ≠ exU5raw := by
  decide

/-- C5 (amended): for a recognized metadata line, a record is emitted iff
the immediately following line exists and its stripped form is non-empty and
does not start with `#`; the record's url is the stripped following line;
otherwise the entry is discarded and scanning proceeds at the next line. -/
theorem c5_amended (m : Str → Option Str) (g ml nx : Str) (rest : List Str)
    (h1 : startsWith metaTag (strip ml) = true) :
    (validUrl (strip nx) = true →
      parseLines m (ml :: nx :: rest) g =
        ⟨groupOf g (strip ml), applyMap m (rawName (strip ml)), strip nx⟩ ::
          parseLines m (nx :: rest) (groupOf g (strip ml))) ∧
    (validUrl (strip nx) = false →
      parseLines m (ml :: nx :: rest) g = parseLines m (nx :: rest) g) ∧
    parseLines m [ ml ] g = [] :=
  ⟨fun h2 => parseLines_cons_meta_valid m g ml nx rest h1 h2,
   fun h2 => parseLines_cons_meta_invalid m g ml nx rest h1 h2,
   parseLines_single_meta m g ml⟩

/-- C5 amended witness at a concrete input. -/
theorem c5_amended_witness :
    (startsWith metaTag (strip exM5) = true ∧ validUrl (strip exU5raw) = true) ∧
    parseLines exMapNone [ exM5, exU5raw ] ungrouped =
      ⟨groupOf ungrouped (strip exM5), applyMap exMapNone (rawName (strip exM5)),
          strip exU5raw⟩ ::
        parseLines exMapNone [ exU5raw ] (groupOf ungrouped (strip exM5)) :=
  ⟨⟨by decide, by decide⟩,
    (c5_amended exMapNone ungrouped exM5 exU5raw [] (by decide)).1 (by decide)⟩

/-- C6: the record emitted for a recognized metadata line carries the name
obtained by taking the `tvg-name` attribute when present, else the trailing
comma field stripped, and then applying the mapping exactly when the raw name
is a key; the record — hence everything the classifier later matches — holds
the already-normalized name. -/
theorem c6_name (m : Str → Option Str) (g ml nx : Str) (rest : List Str)
    (h1 : startsWith metaTag (strip ml) = true) (h2 : validUrl (strip nx) = true) :
    ∃ e : Entry,
      parseLines m (ml :: nx :: rest) g = e :: parseLines m (nx :: rest) e.group ∧
      e.name = applyMap m (rawName (strip ml)) :=
  ⟨⟨groupOf g (strip ml), applyMap m (rawName (strip ml)), strip nx⟩,
    parseLines_cons_meta_valid m g ml nx rest h1 h2, rfl⟩

/-- C6 witness: the raw display name `CCTV-1` with mapping
`CCTV-1 ↦ CCTV1` yields a record named `CCTV1`, whose serialized line then
matches the expected name `CCTV1`. -/
theorem c6_witness :
    (startsWith metaTag (strip exM6) = true ∧ validUrl (strip exU6) = true) ∧
    (∃ e : Entry,
      parseLines exMap6 (exM6 :: exU6 :: []) ungrouped =
        e :: parseLines exMap6 [ exU6 ] e.group ∧
      e.name = applyMap exMap6 (rawName (strip exM6))) ∧
    applyMap exMap6 (rawName (strip exM6)) = sCctv1 ∧
    matchLine sCctv1 (applyMap exMap6 (rawName (strip exM6)) ++ ',' :: exU6) = true :=
  ⟨⟨by decide, by decide⟩,
    c6_name exMap6 ungrouped exM6 exU6 [] (by decide) (by decide),
    by decide, by decide⟩

/-- C7 counterexample: the written document is the plain newline-join of the
emitted lines, whose last element is a category's blank separator, so the
output text ends with a trailing newline — trailing separators are not
trimmed, refuting the claim. -/
theorem c7_counterexample :
    (joinNl (classify exTNews [ sCnnA ])).getLast? = some ('\n') := by
  decide

/-- C7 (amended): the final document is the emitted lines joined with
newlines with no trimming; since every category block ends with a blank
separator line, for any non-empty template the output ends with a trailing
newline. -/
theorem c7_amended (t : List (Str × List Str)) (als : List Str) (ht : t ≠ []) :
    (joinNl (classify t als)).getLast? = some ('\n') := by
  obtain ⟨ys, hne, heq⟩ := classify_ends_sep t als ht
  rw [heq, joinNl_append_nil_last hne]
  exact List.getLast?_concat _

/-- C7 amended witness at a concrete input. -/
theorem c7_amended_witness :
    exTNews ≠ [] ∧
      (joinNl (classify exTNews [ sCnnA, sBbcB ])).getLast? = some ('\n') :=
  ⟨by decide, c7_amended exTNews [ sCnnA, sBbcB ] (by decide)⟩

/-- C8: the pipeline writes no output exactly when every source contributed
empty content or the loaded template has no categories; in every other run
the output is produced (written once, modelled as the `some` result). -/
theorem c8_early_exit (contents : List Str) (t : List (Str × List Str)) :
    mainRun contents t = none ↔ (∀ c ∈ contents, c = []) ∨ t = [] :=
  mainRun_none_iff contents t

/-- C9: a line containing `#genre#` is excluded from the record set (as is
every line blank after stripping), and consequently appears neither in any
expected-name slot of any category nor in the catch-all. -/
theorem c9_genre_excluded (lines : List Str) (t : List (Str × List Str))
    (l : Str) (h : containsSub genre l = true) :
    l ∉ allLines lines ∧ (∀ ch, l ∉ slotLines (allLines lines) ch) ∧
      l ∉ othersSpec t (allLines lines) ∧ [] ∉ allLines lines := by
  have hmain : l ∉ allLines lines := by
    intro hm
    have h2 := (allLines_no_genre hm).1
    rw [h] at h2
    cases h2
  refine ⟨hmain, ?_, ?_, ?_⟩
  · intro ch hm
    exact hmain (List.mem_of_mem_filter hm)
  · intro hm
    exact hmain (List.mem_of_mem_filter hm)
  · intro hm
    exact (allLines_no_genre hm).2 rfl

/-- C9 witness at a concrete input. -/
theorem c9_witness :
    containsSub genre exGenreLine = true ∧
    exGenreLine ∉ allLines [ sCnnA, exGenreLine ] ∧
    exGenreLine ∉ othersSpec exTNews (allLines [ sCnnA, exGenreLine ]) :=
  ⟨by decide,
    (c9_genre_excluded [ sCnnA, exGenreLine ] exTNews exGenreLine (by decide)).1,
    (c9_genre_excluded [ sCnnA, exGenreLine ] exTNews exGenreLine (by decide)).2.2.1⟩

/-- C10: matched lines are tracked by string equality of the whole serialized
line: the catch-all holds exactly the occurrences of line values never
matched by any slot, in aggregation order, and a value matched anywhere never
reaches the catch-all. -/
theorem c10_catchall (t : List (Str × List Str)) (als : List Str) :
    othersFor (classifyFold t als).2 als = othersSpec t als ∧
    ∀ l, matchedBy t l = true → l ∉ othersFor (classifyFold t als).2 als := by
  refine ⟨othersFor_classifyFold t als, ?_⟩
  intro l hm hmem
  rw [othersFor_classifyFold, othersSpec, List.mem_filter, hm] at hmem
  simp at hmem

/-- C10 witness at a concrete input. -/
theorem c10_witness :
    matchedBy exTNews sCnnA = true ∧
      sCnnA ∉ othersFor (classifyFold exTNews [ sCnnA, sBbcB ]).2 [ sCnnA, sBbcB ] :=
  ⟨by decide, (c10_catchall exTNews [ sCnnA, sBbcB ]).2 sCnnA (by decide)⟩

end SortChannels
